import Mathlib

namespace S3Storage

/-!
Verification of the s3_storage coordination plane against its Go sources.

Each section embeds one component of the repository (package `chunker`,
`retry`, `circuitbreaker`, `hasher`, the gRPC chunk service in
`internal/grpc/handlers.go`, and the upload coordinator in
`internal/api/upload.go`) as executable Lean definitions, then proves or
refutes the specification claims about it.  Go `int64` values are modelled
as `Int` (with Go truncated division `Int.tdiv` / `Int.tmod` where the
source divides), byte strings as `List Nat`, and `time.Duration` values as
nanosecond counts in `Nat`.
-/

/-! ### Chunker (internal/chunker/chunker.go) -/

/-- Record produced by `CalculateChunkBoundaries`; mirrors Go `ChunkInfo`
with fields `Number int`, `Offset int64`, `Size int64`. -/
structure ChunkInfo where
  number : Nat
  offset : Int
  size : Int
deriving Repr, DecidableEq

/-- Errors returned by the chunker validations. -/
inductive ChunkerErr where
  | invalidFileSize
  | fileTooLarge
  | invalidChunkCount
deriving Repr, DecidableEq

/-- MaxFileSize constant: 10 GiB. -/
def maxFileSize : Int := 10 * 1024 * 1024 * 1024

/-- Loop of `CalculateChunkBoundaries`: for each index `i` the chunk size is
`base`, incremented by one while `i < rem`; offsets accumulate. -/
def chunkRows (base rem : Int) : Nat → Int → Nat → List ChunkInfo
  | _, _, 0 => []
  | i, off, Nat.succ count =>
    let size : Int := if (i : Int) < rem then base + 1 else base
    ⟨i, off, size⟩ :: chunkRows base rem (i + 1) (off + size) count

/-- Embedding of Go `CalculateChunkBoundaries(fileSize, numChunks)`:
validates the inputs, then builds `numChunks` rows with
`base = fileSize / numChunks` and `remainder = fileSize % numChunks`
(Go division truncates, hence `tdiv` / `tmod`). -/
def CalculateChunkBoundaries (fileSize : Int) (numChunks : Int) :
    Except ChunkerErr (List ChunkInfo) :=
  if fileSize ≤ 0 then .error .invalidFileSize
  else if maxFileSize < fileSize then .error .fileTooLarge
  else if numChunks ≤ 0 then .error .invalidChunkCount
  else
    .ok (chunkRows (fileSize.tdiv numChunks) (fileSize.tmod numChunks) 0 0 numChunks.toNat)

/-! ### Metadata store (internal/storage/postgres.go)

Rows of the `files`, `chunks` and `upload_sessions` tables.  UUIDs are
modelled as opaque `Nat` (file and chunk ids) or `String` (server ids)
values; timestamps as `Nat`. -/

/-- Row of the `files` table. -/
structure FileRow where
  fileId : Nat
  filename : String
  contentType : String
  totalSize : Int
  uploadStatus : String
deriving Repr, DecidableEq

/-- Row of the `chunks` table. -/
structure ChunkRow where
  chunkId : Nat
  fileId : Nat
  chunkNumber : Nat
  storageServerId : String
  chunkSize : Int
  chunkHash : String
  status : String
deriving Repr, DecidableEq

/-- Row of the `upload_sessions` table. -/
structure SessionRow where
  sessionId : Nat
  fileId : Nat
  status : String
  expiresAt : Nat
deriving Repr, DecidableEq

/-- The metadata database state: contents of the three tables the upload
path can touch. -/
structure DB where
  files : List FileRow
  chunks : List ChunkRow
  sessions : List SessionRow
deriving Repr, DecidableEq

/-- Empty database. -/
def DB.empty : DB := ⟨[], [], []⟩

/-- Go `CreateFile`: a single `INSERT INTO files (...) VALUES (..., 'pending')`
statement (no transaction, no other table touched). -/
def createFile (db : DB) (fid : Nat) (name ctype : String) (size : Int) : DB :=
  { db with files := db.files ++ [⟨fid, name, ctype, size, "pending"⟩] }

/-- Go `UpdateFileStatus`: `UPDATE files SET upload_status = st WHERE file_id = fid`. -/
def updateFileStatus (db : DB) (fid : Nat) (st : String) : DB :=
  { db with files :=
      db.files.map (fun f => if f.fileId = fid then { f with uploadStatus := st } else f) }

/-- Go `CreateChunksBatch`: batch of
`INSERT INTO chunks (...) VALUES (..., 'pending')` statements.  Note the SQL
hardcodes the status literal `pending` for every inserted chunk row. -/
def createChunksBatch (db : DB) (rows : List ChunkRow) : DB :=
  { db with chunks := db.chunks ++ rows.map (fun c => { c with status := "pending" }) }

/-- Go `CreateUploadSession`: `INSERT INTO upload_sessions (...) VALUES
(..., 'active', now + ttl)`.  Defined here because the storage layer offers
it; the claims concern who calls it. -/
def createUploadSession (db : DB) (sid fid : Nat) (now ttl : Nat) : DB :=
  { db with sessions := db.sessions ++ [⟨sid, fid, "active", now + ttl⟩] }

/-! ### Upload coordinator (internal/api/upload.go, UploadFile) -/

/-- External collaborators of `UploadFile`, abstracted: `sha256` stands for
`crypto/sha256` hex digests (no claim depends on its values), `serverOf i`
is the result of `gw.HashRing.GetServer` for chunk `i` (`none` = no servers
available), `netOk i` tells whether streaming chunk `i` to its storage
server succeeds, and `fileId` / `chunkIdOf` are the generated UUIDs. -/
structure UploadDeps where
  sha256 : List Nat → String
  serverOf : Nat → Option String
  netOk : Nat → Bool
  fileId : Nat
  chunkIdOf : Nat → Nat

/-- HTTP status outcome of `UploadFile`. -/
inductive UploadCode where
  | created201
  | badRequest400
  | tooLarge413
  | unavailable503
  | internal500
deriving Repr, DecidableEq

/-- Result of `UploadFile`: response code and final database state. -/
structure UploadOutcome where
  code : UploadCode
  db : DB
deriving Repr, DecidableEq

/-- Result of the per-chunk loop in `UploadFile`. -/
inductive ChunkLoopResult where
  | ok (rows : List ChunkRow) (fileData : List Nat)
  | fail (code : UploadCode) (db : DB)
deriving Repr, DecidableEq

/-- Chunk loop of `UploadFile` (upload.go lines 106-217).  For each boundary
the coordinator reads the chunk span with `io.ReadFull`, silently accepting
`EOF`/`ErrUnexpectedEOF` and truncating to the bytes actually read
(`chunkData = chunkData[:n]`); it hashes the chunk, folds the bytes into the
file hasher, resolves a server, streams the chunk, and accumulates a
`Chunk` record with `ChunkSize = int64(len(chunkData))`.  On failure it sets
the file status to `failed` and aborts with the matching HTTP code. -/
def uploadChunks (deps : UploadDeps) (fid : Nat) (db : DB) :
    List ChunkInfo → List Nat → List ChunkRow → List Nat → ChunkLoopResult
  | [], _, acc, fileData => .ok acc fileData
  | b :: rest, stream, acc, fileData =>
    let chunkData := stream.take b.size.toNat
    let chunkHash := deps.sha256 chunkData
    let cid := deps.chunkIdOf b.number
    match deps.serverOf b.number with
    | none => .fail .unavailable503 (updateFileStatus db fid "failed")
    | some serverId =>
      if deps.netOk b.number then
        uploadChunks deps fid db rest (stream.drop b.size.toNat)
          (acc ++ [⟨cid, fid, b.number, serverId, (chunkData.length : Int),
                   chunkHash, "completed"⟩])
          (fileData ++ chunkData)
      else .fail .internal500 (updateFileStatus db fid "failed")

/-- Embedding of `UploadFile` (upload.go lines 28-250): size validation
(413 above 10 GiB, 400 when empty), `CreateFile` with status `pending`,
boundary computation, the chunk loop, `CreateChunksBatch`, and the final
`UpdateFileStatus(..., "completed")`.  `S` is `header.Size` and `stream`
the multipart body bytes. -/
def uploadFile (deps : UploadDeps) (name ctype : String) (S : Int)
    (stream : List Nat) (db : DB) : UploadOutcome :=
  if maxFileSize < S then ⟨.tooLarge413, db⟩
  else if S = 0 then ⟨.badRequest400, db⟩
  else
    let db1 := createFile db deps.fileId name ctype S
    match CalculateChunkBoundaries S 6 with
    | .error _ => ⟨.internal500, db1⟩
    | .ok bounds =>
      match uploadChunks deps deps.fileId db1 bounds stream [] [] with
      | .fail code db2 => ⟨code, db2⟩
      | .ok rows _ =>
        let db2 := createChunksBatch db1 rows
        ⟨.created201, updateFileStatus db2 deps.fileId "completed"⟩

/-- Concrete dependency fixture used to evaluate the upload model. -/
def deps0 : UploadDeps :=
  { sha256 := fun _ => "h"
    serverOf := fun _ => some "s1"
    netOk := fun _ => true
    fileId := 7
    chunkIdOf := fun i => 100 + i }

/-! ### Retry (internal/retry/retry.go)

`fn` is modelled as a map from the attempt index to the outcome of that
invocation; `IsRetryable` is reflected in the `retryable` flag of an error
outcome.  Durations are nanoseconds. -/

/-- Outcome of one invocation of the retried function. -/
inductive FnResult where
  | ok
  | err (retryable : Bool)
deriving Repr, DecidableEq

/-- Final outcome of `retry.Do`. -/
inductive RetryOutcome where
  | success
  | nonRetryable
  | maxRetriesExceeded
deriving Repr, DecidableEq

/-- Go `RetryConfig` (durations in nanoseconds). -/
structure RetryConfig where
  maxRetries : Nat
  initialBackoff : Nat
  maxBackoff : Nat
deriving Repr, DecidableEq

/-- Go `DefaultRetryConfig`: MaxRetries 3, InitialBackoff 1 s, MaxBackoff 8 s. -/
def DefaultRetryConfig : RetryConfig := ⟨3, 1000000000, 8000000000⟩

/-- Observable trace of one run of `retry.Do`: how many times `fn` was
executed, the sleeps performed between attempts (in order), and the final
outcome. -/
structure RetryTrace where
  executions : Nat
  waits : List Nat
  outcome : RetryOutcome
deriving Repr, DecidableEq

/-- Loop of `retry.Do`: `for attempt := 0; attempt <= MaxRetries; attempt++`
executes `fn`, returns on success, returns on a non-retryable error, breaks
without sleeping when `attempt == MaxRetries`, otherwise sleeps `backoff`
and doubles it capped at `MaxBackoff`.  `remaining = MaxRetries - attempt`. -/
def doLoop (fn : Nat → FnResult) (maxBackoff : Nat) :
    Nat → Nat → Nat → List Nat → RetryTrace
  | remaining, attempt, backoff, waits =>
    match fn attempt with
    | .ok => ⟨attempt + 1, waits, .success⟩
    | .err r =>
      if r then
        match remaining with
        | 0 => ⟨attempt + 1, waits, .maxRetriesExceeded⟩
        | Nat.succ n =>
          let newBackoff := if maxBackoff < backoff * 2 then maxBackoff else backoff * 2
          doLoop fn maxBackoff n (attempt + 1) newBackoff (waits ++ [backoff])
      else ⟨attempt + 1, waits, .nonRetryable⟩

/-- Embedding of `retry.Do(ctx, config, fn)` (context cancellation is not
modelled; no claim concerns it). -/
def retryDo (config : RetryConfig) (fn : Nat → FnResult) : RetryTrace :=
  doLoop fn config.maxBackoff config.maxRetries 0 config.initialBackoff []

/-! ### Circuit breaker (internal/circuitbreaker/circuitbreaker.go)

`time.Time` / `time.Duration` are nanosecond counts; `time.Since(t)` at
current time `now` is `now - t` (executions at monotone times). -/

/-- Go `State`: `StateClosed`, `StateOpen`, `StateHalfOpen` (`opened` names
`StateOpen`; `open` is reserved in Lean). -/
inductive CBState where
  | closed
  | opened
  | halfOpen
deriving Repr, DecidableEq

/-- Go circuit breaker `Config`. -/
structure CBConfig where
  maxFailures : Nat
  openTimeout : Nat
  halfOpenMaxRequests : Nat
deriving Repr, DecidableEq

/-- Go `DefaultConfig`: 5 failures, 30 s open timeout, 3 half-open probes. -/
def CBDefaultConfig : CBConfig := ⟨5, 30000000000, 3⟩

/-- Go `CircuitBreaker` (the mutex is irrelevant to a single sequential
history). -/
structure CircuitBreaker where
  config : CBConfig
  state : CBState
  failures : Nat
  successes : Nat
  lastFailureTime : Nat
  halfOpenRequests : Nat
deriving Repr, DecidableEq

/-- Go `NewCircuitBreaker`. -/
def NewCircuitBreaker (config : CBConfig) : CircuitBreaker :=
  ⟨config, .closed, 0, 0, 0, 0⟩

/-- Go `beforeRequest` at current time `now`: returns whether the request is
admitted (false = `ErrCircuitOpen`) and the updated breaker. -/
def beforeRequest (cb : CircuitBreaker) (now : Nat) : Bool × CircuitBreaker :=
  match cb.state with
  | .closed => (true, cb)
  | .opened =>
    if cb.config.openTimeout < now - cb.lastFailureTime then
      (true, { cb with state := .halfOpen, halfOpenRequests := 0 })
    else
      (false, cb)
  | .halfOpen =>
    if cb.config.halfOpenMaxRequests ≤ cb.halfOpenRequests then
      (false, cb)
    else
      (true, { cb with halfOpenRequests := cb.halfOpenRequests + 1 })

/-- Go `onFailure` at current time `now`: bump the failure counter, stamp
the time, clear successes, then transition per state. -/
def onFailure (cb : CircuitBreaker) (now : Nat) : CircuitBreaker :=
  let cb1 := { cb with failures := cb.failures + 1, lastFailureTime := now,
                       successes := 0 }
  match cb1.state with
  | .closed =>
    if cb1.config.maxFailures ≤ cb1.failures then { cb1 with state := .opened }
    else cb1
  | .halfOpen => { cb1 with state := .opened, halfOpenRequests := 0 }
  | .opened => cb1

/-- Go `onSuccess`: bump the success counter, then transition per state. -/
def onSuccess (cb : CircuitBreaker) : CircuitBreaker :=
  let cb1 := { cb with successes := cb.successes + 1 }
  match cb1.state with
  | .closed => { cb1 with failures := 0 }
  | .halfOpen =>
    if cb1.config.halfOpenMaxRequests ≤ cb1.successes then
      { cb1 with state := .closed, failures := 0, successes := 0,
                 halfOpenRequests := 0 }
    else cb1
  | .opened => cb1

/-- Result of `Execute`: `rejected` is `ErrCircuitOpen` without invoking the
wrapped function; `ran ok` means the function was invoked with outcome
`ok`. -/
inductive ExecResult where
  | rejected
  | ran (ok : Bool)
deriving Repr, DecidableEq

/-- Go `Execute` at time `now`: `beforeRequest`, then the wrapped function
(`fnOutcome` = whether it succeeds), then `afterRequest`. -/
def cbExecute (cb : CircuitBreaker) (now : Nat) (fnOutcome : Bool) :
    ExecResult × CircuitBreaker :=
  match beforeRequest cb now with
  | (false, cb1) => (.rejected, cb1)
  | (true, cb1) =>
    if fnOutcome then (.ran true, onSuccess cb1)
    else (.ran false, onFailure cb1 now)

/-- Fold a sequence of executions (time, wrapped-function outcome) through
the breaker. -/
def runExecs (cb : CircuitBreaker) : List (Nat × Bool) → CircuitBreaker
  | [] => cb
  | (now, o) :: rest => runExecs (cbExecute cb now o).2 rest

/-! ### Chunk service (internal/grpc/handlers.go)

The chunk server's on-disk state is a map from paths to byte contents; the
handlers additionally produce a trace of the file-system operations they
perform, in order.  `crypto/sha256` is abstracted as a `hash` parameter (no
claim depends on its values, only on digest equality). -/

/-- Frame of the `PutChunk` client stream (`PutChunkRequest`). -/
structure PutFrame where
  chunkId : String
  data : List Nat
  checksum : String
deriving Repr, DecidableEq

/-- gRPC status codes raised by the handlers. -/
inductive GrpcCode where
  | invalidArgument
  | notFound
  | dataLoss
  | resourceExhausted
  | internal
deriving Repr, DecidableEq

/-- File-system operations a handler performs. -/
inductive FsOp where
  | create (path : String)
  | write (path : String) (data : List Nat)
  | remove (path : String)
  | sync (path : String)
  | rename (src dst : String)
deriving Repr, DecidableEq

/-- The chunk server's data directory: a map path to byte content. -/
abbrev FileSys := List (String × List Nat)

/-- Look a path up. -/
def fsLookup : FileSys → String → Option (List Nat)
  | [], _ => none
  | (q, d) :: rest, p => if q = p then some d else fsLookup rest p

/-- Create or overwrite a path (`os.Create` truncates). -/
def fsSet : FileSys → String → List Nat → FileSys
  | [], p, d => [(p, d)]
  | (q, e) :: rest, p, d =>
    if q = p then (p, d) :: rest else (q, e) :: fsSet rest p d

/-- Unlink a path (`os.Remove`). -/
def fsRemove : FileSys → String → FileSys
  | [], _ => []
  | (q, e) :: rest, p =>
    if q = p then fsRemove rest p else (q, e) :: fsRemove rest p

/-- Go `getChunkPath`: `dataDir/chunks/<first two chars>/<chunkID>` when the
id has at least two characters, else `dataDir/chunks/<chunkID>`. -/
def getChunkPath (dataDir chunkId : String) : String :=
  if 2 ≤ chunkId.length then
    dataDir ++ "/chunks/" ++ chunkId.take 2 ++ "/" ++ chunkId
  else
    dataDir ++ "/chunks/" ++ chunkId

/-- Running state of the `PutChunk` receive loop: the chunk id and expected
checksum from the first frame, the bytes fed to the hasher, the file
system, and the operation trace. -/
structure PutState where
  chunkID : String
  expected : String
  hashed : List Nat
  fs : FileSys
  trace : List FsOp
deriving Repr, DecidableEq

/-- Receive loop of `PutChunk` (handlers.go lines 55-103): the first frame
fixes `chunkID` and `expectedChecksum` and creates the chunk file — at its
final path, `getChunkPath(chunkID)` — then every frame's bytes are appended
to that file and fed to the hasher. -/
def putChunkLoop (dataDir : String) : List PutFrame → PutState → Except GrpcCode PutState
  | [], st => .ok st
  | f :: rest, st =>
    if st.chunkID = "" then
      if f.chunkId = "" then .error .invalidArgument
      else
        let path := getChunkPath dataDir f.chunkId
        let st1 : PutState :=
          { st with chunkID := f.chunkId, expected := f.checksum,
                    fs := fsSet st.fs path [],
                    trace := st.trace ++ [.create path] }
        let st2 : PutState :=
          if f.data = [] then st1
          else
            { st1 with hashed := st1.hashed ++ f.data,
                       fs := fsSet st1.fs path ((fsLookup st1.fs path).getD [] ++ f.data),
                       trace := st1.trace ++ [.write path f.data] }
        putChunkLoop dataDir rest st2
    else
      let path := getChunkPath dataDir st.chunkID
      let st2 : PutState :=
        if f.data = [] then st
        else
          { st with hashed := st.hashed ++ f.data,
                    fs := fsSet st.fs path ((fsLookup st.fs path).getD [] ++ f.data),
                    trace := st.trace ++ [.write path f.data] }
      putChunkLoop dataDir rest st2

/-- Result of `PutChunk`: the reply (`.ok chunkId` = success response, or a
gRPC error), the resulting file system, and the operation trace. -/
structure PutChunkResult where
  response : Except GrpcCode String
  fs : FileSys
  trace : List FsOp
deriving Repr

/-- Embedding of `PutChunk` (handlers.go lines 42-127): run the receive
loop; with no frames reply `InvalidArgument`; then, if an expected checksum
was supplied and the hash of the received bytes differs, unlink the chunk
path and fail with `DataLoss`; otherwise sync and reply success. -/
def PutChunk (hash : List Nat → String) (dataDir : String)
    (frames : List PutFrame) (fs : FileSys) : PutChunkResult :=
  match putChunkLoop dataDir frames ⟨"", "", [], fs, []⟩ with
  | .error e => ⟨.error e, fs, []⟩
  | .ok st =>
    if st.chunkID = "" then ⟨.error .invalidArgument, fs, []⟩
    else
      let path := getChunkPath dataDir st.chunkID
      if st.expected ≠ "" ∧ hash st.hashed ≠ st.expected then
        ⟨.error .dataLoss, fsRemove st.fs path, st.trace ++ [.remove path]⟩
      else
        ⟨.ok st.chunkID, st.fs, st.trace ++ [.sync path]⟩

/-- Concrete hash fixture: the decimal length of the input. -/
def hash0 : List Nat → String := fun d => toString d.length

/-- Read loop of `GetChunk` over the remaining content, structurally
recursive on a fuel that the wrapper instantiates with the content length
(each iteration consumes at least one byte, so the fuel suffices). -/
def chunkFramesAux : Nat → List Nat → List (List Nat)
  | _, [] => []
  | 0, _ :: _ => []
  | Nat.succ fuel, h :: t =>
    ((h :: t).take 65536) :: chunkFramesAux fuel ((h :: t).drop 65536)

/-- 64 KiB framing of `GetChunk`: the read loop sends the file content in
buffers of at most `ChunkBufferSize = 65536` bytes. -/
def chunkFrames (content : List Nat) : List (List Nat) :=
  chunkFramesAux content.length content

/-- Result of `GetChunk`: the reply (frames of at most 64 KiB, or an error)
and the digest the handler computed over the stored bytes before streaming
— computed, and then discarded: the code never compares it to anything. -/
structure GetChunkResult where
  response : Except GrpcCode (List (List Nat))
  computed : Option String
deriving Repr

/-- Embedding of `GetChunk` (handlers.go lines 130-179): reject an empty
chunk id, `NotFound` when the chunk file does not exist, otherwise compute
the digest of the stored bytes (`io.Copy(hasher, file)` — its result is
never compared to anything), seek back, and stream the bytes in 64 KiB
frames. -/
def GetChunk (hash : List Nat → String) (dataDir : String) (fs : FileSys)
    (chunkId : String) : GetChunkResult :=
  if chunkId = "" then ⟨.error .invalidArgument, none⟩
  else
    match fsLookup fs (getChunkPath dataDir chunkId) with
    | none => ⟨.error .notFound, none⟩
    | some content => ⟨.ok (chunkFrames content), some (hash content)⟩

/-! ### Consistent-hash ring (internal/hasher/consistent_hash.go)

The source hashes with `xxhash.Sum64`; here the hash is a parameter
`h : String → Nat` (no claim below depends on its values).  The Go
`map[string]*Server` is an association list with insert-or-replace and
delete operations. -/

/-- Go `HashNode`: a virtual node on the ring. -/
structure HashNode where
  hashValue : Nat
  serverID : String
deriving Repr, DecidableEq

/-- Go `Server`: a storage server registered in the ring. -/
structure Server where
  id : String
  address : String
deriving Repr, DecidableEq

/-- Go `HashRing`. -/
structure HashRing where
  nodes : List HashNode
  servers : List (String × Server)
  virtualNodes : Nat
deriving Repr, DecidableEq

/-- Insert-or-replace into the servers map (`hr.servers[serverID] = ...`). -/
def mapPut : List (String × Server) → String → Server → List (String × Server)
  | [], k, v => [(k, v)]
  | (q, w) :: rest, k, v =>
    if q = k then (k, v) :: rest else (q, w) :: mapPut rest k v

/-- Map lookup. -/
def mapGet : List (String × Server) → String → Option Server
  | [], _ => none
  | (q, w) :: rest, k => if q = k then some w else mapGet rest k

/-- Map deletion (`delete(hr.servers, serverID)`). -/
def mapDel : List (String × Server) → String → List (String × Server)
  | [], _ => []
  | (q, w) :: rest, k =>
    if q = k then mapDel rest k else (q, w) :: mapDel rest k

/-- Ring errors. -/
inductive RingErr where
  | noServersAvailable
  | serverNotFound
deriving Repr, DecidableEq

/-- Go `DefaultVirtualNodes`. -/
def DefaultVirtualNodes : Nat := 150

/-- Go `NewHashRing`. -/
def NewHashRing : HashRing := ⟨[], [], DefaultVirtualNodes⟩

/-- Go `AddServer`: register the server in the map, append `virtualNodes`
nodes hashed from `serverID#i`, and re-sort the node list by hash value
(`sort.Slice`, modelled by `mergeSort`). -/
def AddServer (h : String → Nat) (hr : HashRing) (serverID address : String) :
    HashRing :=
  { hr with
    servers := mapPut hr.servers serverID ⟨serverID, address⟩
    nodes :=
      (hr.nodes ++ (List.range hr.virtualNodes).map
        (fun i => HashNode.mk (h (serverID ++ "#" ++ toString i)) serverID)).mergeSort
        (fun a b => a.hashValue ≤ b.hashValue) }

/-- Go `RemoveServer`: error when unknown, else delete the map entry and
every virtual node of the server. -/
def RemoveServer (hr : HashRing) (serverID : String) : Except RingErr HashRing :=
  if (mapGet hr.servers serverID).isSome then
    .ok { hr with
      servers := mapDel hr.servers serverID
      nodes := hr.nodes.filter (fun node => node.serverID ≠ serverID) }
  else .error .serverNotFound

/-- Go `sort.Search(n, f)` binary search, structurally recursive on a fuel
that the wrapper instantiates with `n` (the interval shrinks by at least
one per iteration, so the fuel suffices). -/
def sortSearchAux (f : Nat → Bool) : Nat → Nat → Nat → Nat
  | 0, i, _ => i
  | Nat.succ fuel, i, j =>
    if i < j then
      let m := (i + j) / 2
      if f m then sortSearchAux f fuel i m
      else sortSearchAux f fuel (m + 1) j
    else i

/-- Go `sort.Search(n, f)`. -/
def sortSearch (n : Nat) (f : Nat → Bool) : Nat := sortSearchAux f n 0 n

/-- Go `GetServer`: error on an empty ring; else binary-search for the
first node with `HashValue >= keyHash`, wrapping to index 0 past the end,
and return that node's server id. -/
def GetServer (h : String → Nat) (hr : HashRing) (key : String) :
    Except RingErr String :=
  if hr.nodes.length = 0 then .error .noServersAvailable
  else
    let keyHash := h key
    let idx := sortSearch hr.nodes.length
      (fun i => keyHash ≤ (hr.nodes.getD i ⟨0, ""⟩).hashValue)
    let idx2 := if hr.nodes.length ≤ idx then 0 else idx
    .ok ((hr.nodes.getD idx2 ⟨0, ""⟩).serverID)

/-- Concrete string-hash fixture. -/
def strHash0 : String → Nat := fun s => s.length

/-- Ring invariant of C10: every virtual node belongs to a server that is
registered in the servers map. -/
def RingInv (hr : HashRing) : Prop :=
  ∀ node ∈ hr.nodes, (mapGet hr.servers node.serverID).isSome = true

/-! ### Theorems -/

theorem chunkRows_length (base rem : Int) :
    ∀ (count : Nat) (i : Nat) (off : Int), (chunkRows base rem i off count).length = count := by
  intro count
  induction count with
  | zero => intro i off; rfl
  | succ n ih => intro i off; simp [chunkRows, ih]

/-- C5: for every declared size `1 ≤ S ≤ 10 GiB`, the boundary computation
returns exactly 6 chunks; with `base = S div 6` and `remainder = S mod 6`
the first `remainder` chunks have size `base + 1` and the rest `base`;
offsets are cumulative starting at 0 (hence contiguous and, sizes being
nonnegative, non-overlapping); the sizes sum to `S`. -/
theorem calculateChunkBoundaries_six_way_split (S : Int)
    (h1 : 1 ≤ S) (h2 : S ≤ 10 * 1024 * 1024 * 1024) :
    ∃ cs, CalculateChunkBoundaries S 6 = .ok cs ∧
      cs.length = 6 ∧
      (∀ k : Fin cs.length,
        (cs.get k).size = if ((k : Nat) : Int) < S % 6 then S / 6 + 1 else S / 6) ∧
      (∀ k : Fin cs.length, (cs.get k).number = (k : Nat)) ∧
      (∀ k : Fin cs.length, 0 ≤ (cs.get k).size) ∧
      (cs.getD 0 ⟨0, 0, 0⟩).offset = 0 ∧
      (∀ k (hk : k + 1 < cs.length),
        (cs.get ⟨k + 1, hk⟩).offset =
          (cs.get ⟨k, Nat.lt_of_succ_lt hk⟩).offset +
            (cs.get ⟨k, Nat.lt_of_succ_lt hk⟩).size) ∧
      (cs.map ChunkInfo.size).sum = S := by
  have hb : S.tdiv 6 = S / 6 := Int.tdiv_eq_ediv (by omega) (by omega)
  have hm : S.tmod 6 = S % 6 := Int.tmod_eq_emod (by omega) (by omega)
  have hok : CalculateChunkBoundaries S 6 =
      .ok (chunkRows (S / 6) (S % 6) 0 0 6) := by
    simp only [CalculateChunkBoundaries, maxFileSize]
    rw [if_neg (by omega), if_neg (by omega), if_neg (by omega), hb, hm]
    rfl
  refine ⟨_, hok, rfl, ?_, ?_, ?_, rfl, ?_, ?_⟩
  · intro k
    fin_cases k <;> rfl
  · intro k
    fin_cases k <;> rfl
  · intro k
    fin_cases k <;> simp only [chunkRows, List.get] <;> split <;> omega
  · intro k hk
    have hk6 : k + 1 < 6 := hk
    have hk5 : k < 5 := by omega
    interval_cases k <;> rfl
  · have hr : S % 6 = 0 ∨ S % 6 = 1 ∨ S % 6 = 2 ∨ S % 6 = 3 ∨ S % 6 = 4 ∨ S % 6 = 5 := by
      omega
    rcases hr with h | h | h | h | h | h <;>
      simp [chunkRows, h] <;> omega

/-- Witness for C5, at the spec scenario `S = 1000003`: the hypotheses hold
and the boundary computation splits into sizes `166668, 166667 × 5`. -/
theorem calculateChunkBoundaries_six_way_split_witness :
    ((1 : Int) ≤ 1000003 ∧ (1000003 : Int) ≤ 10 * 1024 * 1024 * 1024) ∧
      (∃ cs, CalculateChunkBoundaries 1000003 6 = .ok cs ∧
        (cs.map ChunkInfo.size).sum = 1000003) ∧
      CalculateChunkBoundaries 1000003 6 =
        .ok [⟨0, 0, 166668⟩, ⟨1, 166668, 166667⟩, ⟨2, 333335, 166667⟩,
             ⟨3, 500002, 166667⟩, ⟨4, 666669, 166667⟩, ⟨5, 833336, 166667⟩] := by
  refine ⟨⟨by norm_num, by norm_num⟩, ?_, by rfl⟩
  obtain ⟨cs, hok, -, -, -, -, -, -, hsum⟩ :=
    calculateChunkBoundaries_six_way_split 1000003 (by norm_num) (by norm_num)
  exact ⟨cs, hok, hsum⟩

theorem uploadChunks_fail_sessions (deps : UploadDeps) (fid : Nat) (db : DB) :
    ∀ (bs : List ChunkInfo) (stream : List Nat) (acc : List ChunkRow)
      (fd : List Nat) (code : UploadCode) (db2 : DB),
      uploadChunks deps fid db bs stream acc fd = .fail code db2 →
      db2.sessions = db.sessions := by
  intro bs
  induction bs with
  | nil =>
    intro stream acc fd code db2 h
    simp [uploadChunks] at h
  | cons b rest ih =>
    intro stream acc fd code db2 h
    simp only [uploadChunks] at h
    split at h
    · cases h
      rfl
    · split at h
      · exact ih _ _ _ _ _ h
      · cases h
        rfl

theorem uploadChunks_fail_code (deps : UploadDeps) (fid : Nat) (db : DB) :
    ∀ (bs : List ChunkInfo) (stream : List Nat) (acc : List ChunkRow)
      (fd : List Nat) (code : UploadCode) (db2 : DB),
      uploadChunks deps fid db bs stream acc fd = .fail code db2 →
      code = .unavailable503 ∨ code = .internal500 := by
  intro bs
  induction bs with
  | nil =>
    intro stream acc fd code db2 h
    simp [uploadChunks] at h
  | cons b rest ih =>
    intro stream acc fd code db2 h
    simp only [uploadChunks] at h
    split at h
    · cases h
      exact Or.inl rfl
    · split at h
      · exact ih _ _ _ _ _ h
      · cases h
        exact Or.inr rfl

/-- C1: the spec says the upload start inserts `File{state=pending}` together
with an active `UploadSession` in one transaction, so every upload that
creates a `File` row leaves an active `UploadSession` row.  The code never
calls `CreateUploadSession` on any upload path: `UploadFile` only issues the
single-row `CreateFile` insert.  This theorem shows (i) no execution of the
upload path ever changes the `upload_sessions` table, and (ii) a concrete
accepted 1-byte upload that ends `completed` with a `files` row and no
session row. -/
theorem uploadFile_creates_no_upload_session :
    (∀ (deps : UploadDeps) (name ctype : String) (S : Int) (stream : List Nat)
      (db : DB), (uploadFile deps name ctype S stream db).db.sessions = db.sessions) ∧
    (uploadFile deps0 "a.txt" "text/plain" 1 [97] DB.empty).db.files =
      [⟨7, "a.txt", "text/plain", 1, "completed"⟩] ∧
    (uploadFile deps0 "a.txt" "text/plain" 1 [97] DB.empty).db.sessions = [] := by
  refine ⟨?_, by rfl, by rfl⟩
  intro deps name ctype S stream db
  unfold uploadFile
  split
  · rfl
  · split
    · rfl
    · split
      · rfl
      · next bounds hb =>
        dsimp only
        split
        · next code db2 heq =>
          have h2 := uploadChunks_fail_sessions deps deps.fileId
            (createFile db deps.fileId name ctype S) bounds stream [] [] code db2 heq
          simpa [createFile] using h2
        · rfl

/-- C4 counterexample: uploading with declared size 6 while the stream
supplies only 3 bytes yields a `completed` file of recorded size 6 whose
chunk rows have lengths summing to 3, not 6. -/
theorem uploadFile_short_stream_counterexample :
    (uploadFile deps0 "f.bin" "application/octet-stream" 6 [10, 20, 30] DB.empty).code =
        .created201 ∧
    (uploadFile deps0 "f.bin" "application/octet-stream" 6 [10, 20, 30]
        DB.empty).db.files =
      [⟨7, "f.bin", "application/octet-stream", 6, "completed"⟩] ∧
    ((uploadFile deps0 "f.bin" "application/octet-stream" 6 [10, 20, 30]
        DB.empty).db.chunks.map ChunkRow.chunkSize).sum = 3 ∧
    ¬((uploadFile deps0 "f.bin" "application/octet-stream" 6 [10, 20, 30]
        DB.empty).db.chunks.map ChunkRow.chunkSize).sum = 6 := by
  exact ⟨rfl, rfl, rfl, by decide⟩

theorem chunkRows_size_nonneg (base rem : Int) (hbase : 0 ≤ base) :
    ∀ (count i : Nat) (off : Int),
      ∀ c ∈ chunkRows base rem i off count, 0 ≤ c.size := by
  intro count
  induction count with
  | zero => intro i off c hc; simp [chunkRows] at hc
  | succ n ih =>
    intro i off c hc
    simp only [chunkRows, List.mem_cons] at hc
    rcases hc with rfl | hc
    · dsimp only
      split <;> omega
    · exact ih _ _ c hc

theorem chunkRows_size_sum (base rem : Int) :
    ∀ (count i : Nat) (off : Int),
      ((chunkRows base rem i off count).map ChunkInfo.size).sum =
        count * base + max 0 (min (rem - i) count) := by
  intro count
  induction count with
  | zero => intro i off; simp [chunkRows]
  | succ n ih =>
    intro i off
    simp only [chunkRows, List.map_cons, List.sum_cons, ih (i + 1)]
    have hcast : ((i + 1 : Nat) : Int) = (i : Int) + 1 := by push_cast; ring
    rw [hcast]
    push_cast
    have hmul : ((n : Int) + 1) * base = (n : Int) * base + base := by ring
    split <;> omega

theorem uploadChunks_ok_sizes (deps : UploadDeps) (fid : Nat) (db : DB) :
    ∀ (bs : List ChunkInfo) (stream : List Nat) (acc : List ChunkRow)
      (fd : List Nat) (rows : List ChunkRow) (fdout : List Nat),
      (∀ b ∈ bs, 0 ≤ b.size) →
      uploadChunks deps fid db bs stream acc fd = .ok rows fdout →
      (rows.map ChunkRow.chunkSize).sum =
        (acc.map ChunkRow.chunkSize).sum +
          min ((bs.map ChunkInfo.size).sum) (stream.length : Int) := by
  intro bs
  induction bs with
  | nil =>
    intro stream acc fd rows fdout hnn h
    cases h
    simp
  | cons b rest ih =>
    intro stream acc fd rows fdout hnn h
    simp only [uploadChunks] at h
    split at h
    · cases h
    · split at h
      · have hb : 0 ≤ b.size := hnn b (List.mem_cons_self b rest)
        have hrest : ∀ x ∈ rest, 0 ≤ x.size := fun x hx => hnn x (List.mem_cons_of_mem b hx)
        have hsum := ih (stream.drop b.size.toNat) _ _ rows fdout hrest h
        rw [hsum]
        simp only [List.map_append, List.sum_append, List.map_cons, List.sum_cons,
          List.map_nil, List.sum_nil, List.length_take, List.length_drop,
          List.map_cons, List.sum_cons]
        have hrest_nonneg : 0 ≤ (rest.map ChunkInfo.size).sum :=
          List.sum_nonneg (by
            intro x hx
            simp only [List.mem_map] at hx
            obtain ⟨c, hc, rfl⟩ := hx
            exact hrest c hc)
        have htn : ((b.size.toNat : Nat) : Int) = b.size := Int.toNat_of_nonneg hb
        push_cast
        omega
      · cases h

/-- C4 (amended): for every upload that ends with a `completed` file (HTTP
201), the recorded chunk lengths sum to `min S (bytes supplied)` where `S`
is the declared size recorded in the file row.  The sum equals the recorded
total size exactly when the stream supplies at least `S` bytes; when it
supplies fewer, the file is nevertheless `completed` and the sum falls
short of the recorded size. -/
theorem uploadFile_completed_sum_is_min (deps : UploadDeps) (name ctype : String)
    (S : Int) (stream : List Nat) (out : UploadOutcome)
    (h : uploadFile deps name ctype S stream DB.empty = out)
    (hc : out.code = .created201) :
    ((out.db.chunks.map ChunkRow.chunkSize).sum = min S (stream.length : Int)) ∧
    out.db.files = [⟨deps.fileId, name, ctype, S, "completed"⟩] ∧
    (S ≤ (stream.length : Int) → (out.db.chunks.map ChunkRow.chunkSize).sum = S) ∧
    ((stream.length : Int) < S → (out.db.chunks.map ChunkRow.chunkSize).sum < S) := by
  unfold uploadFile at h
  split at h
  · subst h
    simp at hc
  · split at h
    · subst h
      simp at hc
    · split at h
      · subst h
        simp at hc
      · next bounds hb =>
        dsimp only at h
        split at h
        · next code db2 heq =>
          subst h
          rcases uploadChunks_fail_code deps deps.fileId
              (createFile DB.empty deps.fileId name ctype S) bounds stream [] []
              code db2 heq with hcode | hcode <;> simp [hcode] at hc
        · next rows fdout heq =>
          subst h
          -- extract the boundary facts from hb
          unfold CalculateChunkBoundaries at hb
          split_ifs at hb with hS0 hmax2
          all_goals simp at hb
          have hbounds : bounds = chunkRows (S.tdiv 6) (S.tmod 6) 0 0 6 := hb.symm
          have hS : 1 ≤ S := by omega
          have htd : S.tdiv 6 = S / 6 := Int.tdiv_eq_ediv (by omega) (by omega)
          have htm : S.tmod 6 = S % 6 := Int.tmod_eq_emod (by omega) (by omega)
          have hsum : ((bounds.map ChunkInfo.size).sum) = S := by
            rw [hbounds, chunkRows_size_sum, htd, htm]
            omega
          have hnn : ∀ b ∈ bounds, 0 ≤ b.size := by
            rw [hbounds]
            exact chunkRows_size_nonneg _ _ (by rw [htd]; omega) 6 0 0
          have hrows := uploadChunks_ok_sizes deps deps.fileId
            (createFile DB.empty deps.fileId name ctype S) bounds stream [] []
            rows fdout hnn heq
          rw [hsum] at hrows
          simp only [List.map_nil, List.sum_nil, zero_add] at hrows
          have hchunks :
              ((updateFileStatus (createChunksBatch
                  (createFile DB.empty deps.fileId name ctype S) rows)
                  deps.fileId "completed").chunks.map ChunkRow.chunkSize).sum =
                (rows.map ChunkRow.chunkSize).sum := by
            simp [updateFileStatus, createChunksBatch, createFile, DB.empty,
              List.map_map, Function.comp_def]
          refine ⟨?_, ?_, ?_, ?_⟩
          · rw [hchunks, hrows]
          · simp [updateFileStatus, createChunksBatch, createFile, DB.empty]
          · intro hle
            rw [hchunks, hrows]
            omega
          · intro hlt
            rw [hchunks, hrows]
            omega

/-- Witness for the amended C4 theorem: a 3-byte upload of declared size 3
is accepted and its chunk sizes sum to `3 = min 3 3`. -/
theorem uploadFile_completed_sum_is_min_witness :
    ∃ out, uploadFile deps0 "w.bin" "application/octet-stream" 3 [1, 2, 3] DB.empty = out ∧
      out.code = .created201 ∧
      (out.db.chunks.map ChunkRow.chunkSize).sum = min 3 ((3 : Nat) : Int) := by
  refine ⟨_, rfl, rfl, ?_⟩
  have h := uploadFile_completed_sum_is_min deps0 "w.bin" "application/octet-stream"
    3 [1, 2, 3] _ rfl rfl
  exact h.1

/-- C6 counterexample: with the default configuration an always-retryably-
failing `fn` is executed 4 times, not at most 3, and the wait before the
first re-attempt is 1 s, not `min(1s * 2^1, 8s) = 2 s`. -/
theorem retryDo_counterexample :
    retryDo DefaultRetryConfig (fun _ => .err true) =
      ⟨4, [1000000000, 2000000000, 4000000000], .maxRetriesExceeded⟩ ∧
    ¬(retryDo DefaultRetryConfig (fun _ => .err true)).executions ≤ 3 ∧
    ¬((retryDo DefaultRetryConfig (fun _ => .err true)).waits.getD 0 0 =
        min (1000000000 * 2 ^ 1) 8000000000) := by
  refine ⟨by rfl, by decide, by decide⟩

theorem doLoop_executions_le (fn : Nat → FnResult) (maxBackoff : Nat) :
    ∀ (remaining attempt backoff : Nat) (waits : List Nat),
      (doLoop fn maxBackoff remaining attempt backoff waits).executions ≤
        attempt + remaining + 1 := by
  intro remaining
  induction remaining with
  | zero =>
    intro attempt backoff waits
    rw [doLoop]
    rcases fn attempt with _ | r
    · simp
    · rcases r with _ | _ <;> simp
  | succ n ih =>
    intro attempt backoff waits
    rw [doLoop]
    rcases fn attempt with _ | r
    · simp
    · rcases r with _ | _
      · simp
      · simp only [if_pos]
        have h2 := ih (attempt + 1)
          (if maxBackoff < backoff * 2 then maxBackoff else backoff * 2)
          (waits ++ [backoff])
        omega

theorem doLoop_waits_formula (fn : Nat → FnResult) :
    ∀ (remaining attempt backoff : Nat) (waits : List Nat),
      (∀ k, k < waits.length →
        waits.getD k 0 = min (1000000000 * 2 ^ k) 8000000000) →
      backoff = min (1000000000 * 2 ^ waits.length) 8000000000 →
      ∀ k, k < (doLoop fn 8000000000 remaining attempt backoff waits).waits.length →
        (doLoop fn 8000000000 remaining attempt backoff waits).waits.getD k 0 =
          min (1000000000 * 2 ^ k) 8000000000 := by
  intro remaining
  induction remaining with
  | zero =>
    intro attempt backoff waits hw hb
    rw [doLoop]
    rcases fn attempt with _ | r
    · exact hw
    · rcases r with _ | _ <;> exact hw
  | succ n ih =>
    intro attempt backoff waits hw hb
    rw [doLoop]
    rcases fn attempt with _ | r
    · exact hw
    · rcases r with _ | _
      · exact hw
      · simp only [if_pos]
        refine ih (attempt + 1) _ (waits ++ [backoff]) ?_ ?_
        · intro k hk
          simp only [List.length_append, List.length_cons, List.length_nil] at hk
          rcases Nat.lt_or_ge k waits.length with hlt | hge
          · rw [List.getD_append _ _ _ _ hlt]
            exact hw k hlt
          · have hkeq : k = waits.length := by omega
            subst hkeq
            rw [List.getD_append_right _ _ _ _ hge]
            simpa using hb
        · have hpow : (2 : Nat) ^ (waits ++ [backoff]).length =
              2 ^ waits.length * 2 := by
            simp [pow_succ]
          rw [hpow]
          have h1 : (1 : Nat) ≤ 2 ^ waits.length := Nat.one_le_two_pow
          split <;> omega

theorem doLoop_nonretryable_stops (fn : Nat → FnResult) :
    ∀ (remaining attempt backoff : Nat) (waits : List Nat) (j : Nat),
      attempt ≤ j → j ≤ attempt + remaining →
      fn j = .err false →
      (∀ i, attempt ≤ i → i < j → fn i = .err true) →
      (doLoop fn 8000000000 remaining attempt backoff waits).executions = j + 1 ∧
      (doLoop fn 8000000000 remaining attempt backoff waits).outcome = .nonRetryable := by
  intro remaining
  induction remaining with
  | zero =>
    intro attempt backoff waits j h1 h2 hj hprev
    have : j = attempt := by omega
    subst this
    rw [doLoop, hj]
    exact ⟨rfl, rfl⟩
  | succ n ih =>
    intro attempt backoff waits j h1 h2 hj hprev
    rcases Nat.eq_or_lt_of_le h1 with heq | hlt
    · subst heq
      rw [doLoop, hj]
      exact ⟨rfl, rfl⟩
    · have hfa : fn attempt = .err true := hprev attempt (le_refl _) hlt
      rw [doLoop, hfa]
      simp only [if_pos]
      exact ih (attempt + 1) _ (waits ++ [backoff]) j hlt (by omega) hj
        (fun i hi1 hi2 => hprev i (by omega) hi2)

/-- C6 (amended): with the default configuration (MaxRetries 3, initial
backoff 1 s, cap 8 s) a retryable call executes `fn` at most `3 + 1 = 4`
times; the wait before the k-th re-attempt (k = 1, 2, 3) is
`min(1s * 2^(k-1), 8s)` — 1 s, 2 s, 4 s — and a non-retryable error from
the j-th execution stops the loop immediately with `j + 1` executions in
total. -/
theorem retryDo_default_behaviour (fn : Nat → FnResult) :
    (retryDo DefaultRetryConfig fn).executions ≤ 4 ∧
    (∀ k, k < (retryDo DefaultRetryConfig fn).waits.length →
      (retryDo DefaultRetryConfig fn).waits.getD k 0 =
        min (1000000000 * 2 ^ k) 8000000000) ∧
    (∀ j, j ≤ 3 → fn j = .err false → (∀ i, i < j → fn i = .err true) →
      (retryDo DefaultRetryConfig fn).executions = j + 1 ∧
      (retryDo DefaultRetryConfig fn).outcome = .nonRetryable) := by
  refine ⟨?_, ?_, ?_⟩
  · exact doLoop_executions_le fn 8000000000 3 0 1000000000 []
  · exact doLoop_waits_formula fn 3 0 1000000000 []
      (by intro k hk; simp at hk) (by norm_num)
  · intro j hj hfj hprev
    exact doLoop_nonretryable_stops fn 3 0 1000000000 [] j (Nat.zero_le _) (by omega)
      hfj (fun i _ hi2 => hprev i hi2)

/-- Witness for the amended C6 theorem: a function failing retryably once
and then non-retryably executes exactly twice after one 1 s wait. -/
theorem retryDo_default_behaviour_witness :
    (retryDo DefaultRetryConfig
        (fun j => if j = 0 then .err true else .err false)).executions = 2 ∧
    (retryDo DefaultRetryConfig
        (fun j => if j = 0 then .err true else .err false)).outcome = .nonRetryable ∧
    (retryDo DefaultRetryConfig
        (fun j => if j = 0 then .err true else .err false)).waits = [1000000000] := by
  have h := retryDo_default_behaviour (fun j => if j = 0 then .err true else .err false)
  refine ⟨?_, ?_, by rfl⟩
  · exact (h.2.2 1 (by norm_num) (by norm_num) (by
      intro i hi
      interval_cases i
      norm_num)).1
  · exact (h.2.2 1 (by norm_num) (by norm_num) (by
      intro i hi
      interval_cases i
      norm_num)).2

theorem runExecs_consecutive_failures (ts : List Nat) :
    ∀ (cb : CircuitBreaker), cb.config = CBDefaultConfig → cb.state = .closed →
      cb.failures < 5 → cb.failures + ts.length ≤ 5 →
      (runExecs cb (ts.map (fun t => (t, false)))).failures =
          cb.failures + ts.length ∧
      ((runExecs cb (ts.map (fun t => (t, false)))).state = .opened ↔
          cb.failures + ts.length = 5) := by
  induction ts with
  | nil =>
    intro cb hcfg hst hf hb
    simp only [List.map_nil, runExecs, List.length_nil, Nat.add_zero]
    rw [hst]
    refine ⟨trivial, ⟨?_, ?_⟩⟩
    · intro h
      simp at h
    · intro h
      omega
  | cons t rest ih =>
    intro cb hcfg hst hf hb
    obtain ⟨cfg, st, f, su, lt0, hr⟩ := cb
    simp only at hcfg hst hf hb
    subst hcfg
    subst hst
    simp only [List.length_cons] at hb
    simp only [List.map_cons, runExecs]
    by_cases h5 : (5 : Nat) ≤ f + 1
    · have hrest : rest = [] := by
        rcases rest with _ | _
        · rfl
        · exfalso
          simp only [List.length_cons] at hb
          omega
      subst hrest
      have hstep : (cbExecute ⟨CBDefaultConfig, .closed, f, su, lt0, hr⟩ t false).2 =
          ⟨CBDefaultConfig, .opened, f + 1, 0, t, hr⟩ := by
        simp [cbExecute, beforeRequest, onFailure, CBDefaultConfig, h5]
      rw [hstep]
      simp only [List.map_nil, runExecs, List.length_nil, List.length_cons]
      refine ⟨trivial, ?_, ?_⟩
      · intro _
        omega
      · intro _
        trivial
    · have ihr := ih ⟨CBDefaultConfig, .closed, f + 1, 0, t, hr⟩ rfl rfl
        (by simpa using by omega) (by simpa using by omega)
      have hstep : (cbExecute ⟨CBDefaultConfig, .closed, f, su, lt0, hr⟩ t false).2 =
          ⟨CBDefaultConfig, .closed, f + 1, 0, t, hr⟩ := by
        simp [cbExecute, beforeRequest, onFailure, CBDefaultConfig, h5]
      rw [hstep]
      simp only at ihr
      constructor
      · rw [ihr.1]
        simp only [List.length_cons]
        omega
      · rw [ihr.2]
        simp only [List.length_cons]
        omega

/-- C9: with the default configuration, (i) starting from a fresh breaker,
a run of `n ≤ 5` consecutive failed executions leaves the failure counter
at `n` and the breaker reaches Open exactly when `n = 5`; (ii) a success in
Closed state resets the failure counter and keeps the breaker Closed;
(iii) while Open with less than 30 s elapsed since the last failure, every
execution is rejected with `ErrCircuitOpen`, the breaker is unchanged, and
the result does not depend on the wrapped function's outcome — the wrapped
function is never invoked. -/
theorem circuitBreaker_threshold_and_fail_fast :
    (∀ ts : List Nat, ts.length ≤ 5 →
      (runExecs (NewCircuitBreaker CBDefaultConfig)
          (ts.map (fun t => (t, false)))).failures = ts.length ∧
      ((runExecs (NewCircuitBreaker CBDefaultConfig)
          (ts.map (fun t => (t, false)))).state = .opened ↔ ts.length = 5)) ∧
    (∀ (cb : CircuitBreaker) (now : Nat), cb.state = .closed →
      (cbExecute cb now true).2.failures = 0 ∧
      (cbExecute cb now true).2.state = .closed) ∧
    (∀ (cb : CircuitBreaker) (now : Nat) (o : Bool), cb.config = CBDefaultConfig →
      cb.state = .opened → now - cb.lastFailureTime < 30000000000 →
      cbExecute cb now o = (.rejected, cb)) := by
  refine ⟨?_, ?_, ?_⟩
  · intro ts hts
    have h := runExecs_consecutive_failures ts (NewCircuitBreaker CBDefaultConfig)
      rfl rfl (by simp [NewCircuitBreaker]) (by simpa [NewCircuitBreaker] using hts)
    simpa [NewCircuitBreaker] using h
  · intro cb now hst
    obtain ⟨cfg, st, f, su, lt0, hr⟩ := cb
    simp only at hst
    subst hst
    simp [cbExecute, beforeRequest, onSuccess]
  · intro cb now o hcfg hst hlt
    obtain ⟨cfg, st, f, su, lt0, hr⟩ := cb
    simp only at hcfg hst hlt
    subst hcfg
    subst hst
    have hcond : ¬(CBDefaultConfig.openTimeout < now - lt0) := by
      simp only [CBDefaultConfig]
      omega
    simp only [cbExecute, beforeRequest]
    rw [if_neg hcond]

/-- Witness for C9: five failures at times 1..5 open a fresh breaker, and an
execution at time 10 (5 s later) is rejected without running the wrapped
function. -/
theorem circuitBreaker_threshold_and_fail_fast_witness :
    ([1, 2, 3, 4, 5] : List Nat).length ≤ 5 ∧
    (runExecs (NewCircuitBreaker CBDefaultConfig)
        ([1, 2, 3, 4, 5].map (fun t => (t, false)))).state = .opened ∧
    cbExecute ⟨CBDefaultConfig, .opened, 5, 0, 5, 0⟩ 10 true =
      (.rejected, ⟨CBDefaultConfig, .opened, 5, 0, 5, 0⟩) := by
  refine ⟨by norm_num, ?_, ?_⟩
  · exact ((circuitBreaker_threshold_and_fail_fast.1 [1, 2, 3, 4, 5]
      (by norm_num)).2).mpr (by norm_num)
  · exact circuitBreaker_threshold_and_fail_fast.2.2
      ⟨CBDefaultConfig, .opened, 5, 0, 5, 0⟩ 10 true rfl rfl (by norm_num)

theorem fsLookup_fsSet_self (fs : FileSys) (p : String) (d : List Nat) :
    fsLookup (fsSet fs p d) p = some d := by
  induction fs with
  | nil => simp [fsSet, fsLookup]
  | cons kv rest ih =>
    obtain ⟨q, e⟩ := kv
    by_cases h : q = p
    · simp [fsSet, fsLookup, h]
    · simp [fsSet, fsLookup, h, ih]

theorem fsLookup_fsRemove_self (fs : FileSys) (p : String) :
    fsLookup (fsRemove fs p) p = none := by
  induction fs with
  | nil => simp [fsRemove, fsLookup]
  | cons kv rest ih =>
    obtain ⟨q, e⟩ := kv
    by_cases h : q = p
    · simp [fsRemove, h, ih]
    · simp [fsRemove, fsLookup, h, ih]

/-- C2 counterexample: a successful single-frame `PutChunk` with a matching
digest creates, writes and syncs the final chunk path directly — the trace
holds no rename and no temporary path; the claimed temp-file-plus-atomic-
rename protocol does not happen. -/
theorem putChunk_counterexample :
    (PutChunk hash0 "data" [⟨"ab12", [1, 2, 3], "3"⟩] []).response = .ok "ab12" ∧
    (PutChunk hash0 "data" [⟨"ab12", [1, 2, 3], "3"⟩] []).trace =
      [.create "data/chunks/ab/ab12", .write "data/chunks/ab/ab12" [1, 2, 3],
       .sync "data/chunks/ab/ab12"] ∧
    (∀ src dst,
      FsOp.rename src dst ∉ (PutChunk hash0 "data" [⟨"ab12", [1, 2, 3], "3"⟩] []).trace) ∧
    (PutChunk hash0 "data" [⟨"ab12", [1, 2, 3], "3"⟩] []).fs =
      [("data/chunks/ab/ab12", [1, 2, 3])] := by
  have htr : (PutChunk hash0 "data" [⟨"ab12", [1, 2, 3], "3"⟩] []).trace =
      [.create "data/chunks/ab/ab12", .write "data/chunks/ab/ab12" [1, 2, 3],
       .sync "data/chunks/ab/ab12"] := by rfl
  refine ⟨by rfl, htr, ?_, by rfl⟩
  intro src dst h
  rw [htr] at h
  simp at h

theorem putChunkLoop_spec (dataDir : String) :
    ∀ (rest : List PutFrame) (cid exp : String) (hsh : List Nat)
      (fs0 : FileSys) (tr : List FsOp), ¬ cid = "" →
      ∃ st', putChunkLoop dataDir rest ⟨cid, exp, hsh, fs0, tr⟩ = .ok st' ∧
        st'.chunkID = cid ∧
        st'.expected = exp ∧
        st'.hashed = hsh ++ (rest.map PutFrame.data).flatten ∧
        (∀ c, fsLookup fs0 (getChunkPath dataDir cid) = some c →
          fsLookup st'.fs (getChunkPath dataDir cid) =
            some (c ++ (rest.map PutFrame.data).flatten)) ∧
        st'.trace = tr ++
          (rest.filter (fun fr => !fr.data.isEmpty)).map
            (fun fr => FsOp.write (getChunkPath dataDir cid) fr.data) := by
  intro rest
  induction rest with
  | nil =>
    intro cid exp hsh fs0 tr hne
    exact ⟨⟨cid, exp, hsh, fs0, tr⟩, rfl, rfl, rfl, by simp, by simp, by simp⟩
  | cons f rest ih =>
    intro cid exp hsh fs0 tr hne
    rw [putChunkLoop]
    dsimp only
    rw [if_neg hne]
    by_cases hfd : f.data = []
    · rw [if_pos hfd]
      obtain ⟨st', h1, h2, h3, h4, h5, h6⟩ := ih cid exp hsh fs0 tr hne
      refine ⟨st', h1, h2, h3, ?_, ?_, ?_⟩
      · rw [h4]
        simp [hfd]
      · intro c hc
        rw [h5 c hc]
        simp [hfd]
      · rw [h6]
        simp [hfd]
    · rw [if_neg hfd]
      have hemp : f.data.isEmpty = false := by
        rcases hl : f.data with _ | _
        · exact absurd hl hfd
        · rfl
      obtain ⟨st', h1, h2, h3, h4, h5, h6⟩ :=
        ih cid exp (hsh ++ f.data)
          (fsSet fs0 (getChunkPath dataDir cid)
            ((fsLookup fs0 (getChunkPath dataDir cid)).getD [] ++ f.data))
          (tr ++ [.write (getChunkPath dataDir cid) f.data]) hne
      refine ⟨st', h1, h2, h3, ?_, ?_, ?_⟩
      · rw [h4]
        simp [List.append_assoc]
      · intro c hc
        have hc2 : fsLookup
            (fsSet fs0 (getChunkPath dataDir cid)
              ((fsLookup fs0 (getChunkPath dataDir cid)).getD [] ++ f.data))
            (getChunkPath dataDir cid) = some (c ++ f.data) := by
          rw [hc]
          simpa using fsLookup_fsSet_self fs0 (getChunkPath dataDir cid) (c ++ f.data)
        rw [h5 (c ++ f.data) hc2]
        simp [List.append_assoc]
      · rw [h6]
        simp [hemp, List.append_assoc]

theorem putChunk_run (dataDir : String) (f : PutFrame) (rest : List PutFrame)
    (fs : FileSys) (hid : ¬ f.chunkId = "") :
    ∃ sta, putChunkLoop dataDir (f :: rest) ⟨"", "", [], fs, []⟩ = .ok sta ∧
      sta.chunkID = f.chunkId ∧
      sta.expected = f.checksum ∧
      sta.hashed = ((f :: rest).map PutFrame.data).flatten ∧
      fsLookup sta.fs (getChunkPath dataDir f.chunkId) =
        some (((f :: rest).map PutFrame.data).flatten) ∧
      sta.trace = FsOp.create (getChunkPath dataDir f.chunkId) ::
        ((f :: rest).filter (fun fr => !fr.data.isEmpty)).map
          (fun fr => FsOp.write (getChunkPath dataDir f.chunkId) fr.data) := by
  by_cases hfd : f.data = []
  · have hfirst : putChunkLoop dataDir (f :: rest) ⟨"", "", [], fs, []⟩ =
        putChunkLoop dataDir rest
          ⟨f.chunkId, f.checksum, [],
           fsSet fs (getChunkPath dataDir f.chunkId) [],
           [.create (getChunkPath dataDir f.chunkId)]⟩ := by
      rw [putChunkLoop]
      dsimp only
      rw [if_pos rfl, if_neg hid, if_pos hfd]
      rfl
    obtain ⟨sta, h1, h2, h3, h4, h5, h6⟩ := putChunkLoop_spec dataDir rest
      f.chunkId f.checksum []
      (fsSet fs (getChunkPath dataDir f.chunkId) [])
      [.create (getChunkPath dataDir f.chunkId)] hid
    refine ⟨sta, hfirst.trans h1, h2, h3, ?_, ?_, ?_⟩
    · rw [h4]
      simp [hfd]
    · have := h5 [] (fsLookup_fsSet_self fs (getChunkPath dataDir f.chunkId) [])
      rw [this]
      simp [hfd]
    · rw [h6]
      simp [hfd]
  · have hemp : f.data.isEmpty = false := by
      rcases hl : f.data with _ | _
      · exact absurd hl hfd
      · rfl
    have hfirst : putChunkLoop dataDir (f :: rest) ⟨"", "", [], fs, []⟩ =
        putChunkLoop dataDir rest
          ⟨f.chunkId, f.checksum, [] ++ f.data,
           fsSet (fsSet fs (getChunkPath dataDir f.chunkId) [])
             (getChunkPath dataDir f.chunkId)
             ((fsLookup (fsSet fs (getChunkPath dataDir f.chunkId) [])
                 (getChunkPath dataDir f.chunkId)).getD [] ++ f.data),
           [.create (getChunkPath dataDir f.chunkId)] ++
             [.write (getChunkPath dataDir f.chunkId) f.data]⟩ := by
      rw [putChunkLoop]
      dsimp only
      rw [if_pos rfl, if_neg hid, if_neg hfd]
      rfl
    obtain ⟨sta, h1, h2, h3, h4, h5, h6⟩ := putChunkLoop_spec dataDir rest
      f.chunkId f.checksum ([] ++ f.data)
      (fsSet (fsSet fs (getChunkPath dataDir f.chunkId) [])
        (getChunkPath dataDir f.chunkId)
        ((fsLookup (fsSet fs (getChunkPath dataDir f.chunkId) [])
            (getChunkPath dataDir f.chunkId)).getD [] ++ f.data))
      ([.create (getChunkPath dataDir f.chunkId)] ++
        [.write (getChunkPath dataDir f.chunkId) f.data]) hid
    refine ⟨sta, hfirst.trans h1, h2, h3, ?_, ?_, ?_⟩
    · rw [h4]
      simp
    · have hc : fsLookup
          (fsSet (fsSet fs (getChunkPath dataDir f.chunkId) [])
            (getChunkPath dataDir f.chunkId)
            ((fsLookup (fsSet fs (getChunkPath dataDir f.chunkId) [])
                (getChunkPath dataDir f.chunkId)).getD [] ++ f.data))
          (getChunkPath dataDir f.chunkId) = some f.data := by
        rw [fsLookup_fsSet_self fs (getChunkPath dataDir f.chunkId) []]
        simpa using fsLookup_fsSet_self (fsSet fs (getChunkPath dataDir f.chunkId) [])
          (getChunkPath dataDir f.chunkId) f.data
      rw [h5 f.data hc]
      simp
    · rw [h6]
      simp [hemp]

/-- C2 (amended): for every nonempty `PutChunk` stream with a nonempty
chunk id, the server creates and writes the chunk file directly at its
final path — no temporary file: the trace holds no rename, and every write
targets the final chunk path.  At end-of-stream, if a digest was supplied
and the hash of the received bytes differs, it unlinks that file and fails
with `DataLoss`, leaving nothing at the final chunk path; otherwise it
syncs the file and replies success, with the concatenated stream bytes at
the final path. -/
theorem putChunk_direct_final_path (hash : List Nat → String) (dataDir : String)
    (f : PutFrame) (rest : List PutFrame) (fs : FileSys)
    (hid : ¬ f.chunkId = "") :
    ((¬ f.checksum = "" ∧
        ¬ hash (((f :: rest).map PutFrame.data).flatten) = f.checksum) →
      (PutChunk hash dataDir (f :: rest) fs).response = .error .dataLoss ∧
      fsLookup (PutChunk hash dataDir (f :: rest) fs).fs
        (getChunkPath dataDir f.chunkId) = none) ∧
    ((f.checksum = "" ∨
        hash (((f :: rest).map PutFrame.data).flatten) = f.checksum) →
      (PutChunk hash dataDir (f :: rest) fs).response = .ok f.chunkId ∧
      fsLookup (PutChunk hash dataDir (f :: rest) fs).fs
        (getChunkPath dataDir f.chunkId) =
          some (((f :: rest).map PutFrame.data).flatten)) ∧
    (∀ src dst, FsOp.rename src dst ∉ (PutChunk hash dataDir (f :: rest) fs).trace) ∧
    (∀ p d, FsOp.write p d ∈ (PutChunk hash dataDir (f :: rest) fs).trace →
      p = getChunkPath dataDir f.chunkId) := by
  obtain ⟨sta, hloop, hcid, hexp, hhsh, hlk, htr⟩ :=
    putChunk_run dataDir f rest fs hid
  have hput : PutChunk hash dataDir (f :: rest) fs =
      if ¬ sta.expected = "" ∧ ¬ hash sta.hashed = sta.expected then
        ⟨.error .dataLoss, fsRemove sta.fs (getChunkPath dataDir sta.chunkID),
          sta.trace ++ [.remove (getChunkPath dataDir sta.chunkID)]⟩
      else
        ⟨.ok sta.chunkID, sta.fs,
          sta.trace ++ [.sync (getChunkPath dataDir sta.chunkID)]⟩ := by
    unfold PutChunk
    rw [hloop]
    dsimp only
    rw [if_neg (by rw [hcid]; exact hid)]
  rw [hexp, hhsh, hcid] at hput
  by_cases hmm : ¬ f.checksum = "" ∧
      ¬ hash (((f :: rest).map PutFrame.data).flatten) = f.checksum
  · rw [if_pos hmm] at hput
    refine ⟨fun _ => ?_, fun hok => ?_, ?_, ?_⟩
    · rw [hput]
      exact ⟨rfl, fsLookup_fsRemove_self sta.fs (getChunkPath dataDir f.chunkId)⟩
    · exfalso
      rcases hok with hok | hok
      · exact hmm.1 hok
      · exact hmm.2 hok
    · intro src dst hmem
      rw [hput] at hmem
      simp only at hmem
      rw [htr] at hmem
      simp only [List.mem_append, List.mem_cons, List.mem_map,
        List.not_mem_nil, or_false] at hmem
      rcases hmem with (h | ⟨fr, _, h⟩) | h <;> cases h
    · intro p d hmem
      rw [hput] at hmem
      simp only at hmem
      rw [htr] at hmem
      simp only [List.mem_append, List.mem_cons, List.mem_map,
        List.not_mem_nil, or_false] at hmem
      rcases hmem with (h | ⟨fr, _, h⟩) | h
      · cases h
      · cases h
        rfl
      · cases h
  · rw [if_neg hmm] at hput
    refine ⟨fun hc => absurd hc hmm, fun _ => ?_, ?_, ?_⟩
    · rw [hput]
      exact ⟨rfl, hlk⟩
    · intro src dst hmem
      rw [hput] at hmem
      simp only at hmem
      rw [htr] at hmem
      simp only [List.mem_append, List.mem_cons, List.mem_map,
        List.not_mem_nil, or_false] at hmem
      rcases hmem with (h | ⟨fr, _, h⟩) | h <;> cases h
    · intro p d hmem
      rw [hput] at hmem
      simp only at hmem
      rw [htr] at hmem
      simp only [List.mem_append, List.mem_cons, List.mem_map,
        List.not_mem_nil, or_false] at hmem
      rcases hmem with (h | ⟨fr, _, h⟩) | h
      · cases h
      · cases h
        rfl
      · cases h

/-- Witness for the amended C2 theorem: a two-frame stream with a failing
digest is refused with `DataLoss` and leaves no file at the final chunk
path. -/
theorem putChunk_direct_final_path_witness :
    ¬("cd99" : String) = "" ∧
    (PutChunk hash0 "data" [⟨"cd99", [1], "9"⟩, ⟨"", [2], ""⟩] []).response =
      .error .dataLoss ∧
    fsLookup (PutChunk hash0 "data" [⟨"cd99", [1], "9"⟩, ⟨"", [2], ""⟩] []).fs
      (getChunkPath "data" "cd99") = none := by
  refine ⟨by decide, ?_⟩
  have h := putChunk_direct_final_path hash0 "data" ⟨"cd99", [1], "9"⟩
    [⟨"", [2], ""⟩] [] (by decide)
  exact h.1 ⟨by decide, by decide⟩

/-- C3 counterexample: a stored chunk whose recomputed digest (here `1`)
differs from its expected digest (`deadbeef`) is still served in full; the
response is the chunk's bytes, not `DataLoss`. -/
theorem getChunk_no_verify_counterexample :
    (GetChunk hash0 "data" [("data/chunks/ab/ab12", [9])] "ab12").response =
      .ok [[9]] ∧
    (GetChunk hash0 "data" [("data/chunks/ab/ab12", [9])] "ab12").computed =
      some "1" ∧
    ¬("1" : String) = "deadbeef" ∧
    ¬(GetChunk hash0 "data" [("data/chunks/ab/ab12", [9])] "ab12").response =
      .error .dataLoss := by
  refine ⟨rfl, rfl, by decide, ?_⟩
  intro h
  have h2 : (Except.ok [[9]] : Except GrpcCode (List (List Nat))) =
      .error .dataLoss := h
  cases h2

theorem chunkFramesAux_flatten_bound (n : Nat) :
    ∀ content : List Nat, content.length ≤ n →
      (chunkFramesAux n content).flatten = content ∧
      (∀ fr ∈ chunkFramesAux n content, fr.length ≤ 65536) := by
  induction n with
  | zero =>
    intro content hc
    have : content = [] := by
      cases content
      · rfl
      · simp at hc
    subst this
    exact ⟨rfl, by intro fr hfr; cases hfr⟩
  | succ n ih =>
    intro content hc
    rcases content with _ | ⟨h, t⟩
    · exact ⟨rfl, by intro fr hfr; cases hfr⟩
    · rw [chunkFramesAux]
      have hdrop : ((h :: t).drop 65536).length ≤ n := by
        simp only [List.length_drop, List.length_cons]
        simp only [List.length_cons] at hc
        omega
      obtain ⟨ih1, ih2⟩ := ih ((h :: t).drop 65536) hdrop
      constructor
      · rw [List.flatten_cons, ih1]
        exact List.take_append_drop 65536 (h :: t)
      · intro fr hfr
        rcases List.mem_cons.mp hfr with rfl | hfr2
        · simp [List.length_take]
        · exact ih2 fr hfr2

theorem chunkFramesAux_fuel (n : Nat) :
    ∀ (m : Nat) (content : List Nat), content.length ≤ n → content.length ≤ m →
      chunkFramesAux n content = chunkFramesAux m content := by
  induction n with
  | zero =>
    intro m content hc hm
    have : content = [] := by
      cases content
      · rfl
      · simp at hc
    subst this
    cases m <;> rfl
  | succ n ih =>
    intro m content hc hm
    rcases content with _ | ⟨h, t⟩
    · cases m <;> rfl
    · rcases m with _ | m
      · simp at hm
      · rw [chunkFramesAux, chunkFramesAux]
        have hlen : ((h :: t).drop 65536).length ≤ n ∧
            ((h :: t).drop 65536).length ≤ m := by
          simp only [List.length_drop, List.length_cons]
          simp only [List.length_cons] at hc hm
          omega
        rw [ih m ((h :: t).drop 65536) hlen.1 hlen.2]

/-- C3 (amended): for every `GetChunk` request for a chunk that exists on
disk, the server computes the stored bytes' digest before streaming but
compares it to nothing (the handler has no expected digest available) and
streams the chunk unconditionally: the reply is the stored bytes in frames
of at most 64 KiB whose concatenation is exactly the stored content, and no
`GetChunk` execution on any input ever fails with `DataLoss`. -/
theorem getChunk_streams_without_verification (hash : List Nat → String)
    (dataDir : String) (fs : FileSys) (chunkId : String) (content : List Nat)
    (hid : ¬ chunkId = "")
    (hfound : fsLookup fs (getChunkPath dataDir chunkId) = some content) :
    GetChunk hash dataDir fs chunkId =
      ⟨.ok (chunkFrames content), some (hash content)⟩ ∧
    (chunkFrames content).flatten = content ∧
    (∀ fr ∈ chunkFrames content, fr.length ≤ 65536) ∧
    (∀ (hash2 : List Nat → String) (fs2 : FileSys) (cid2 : String),
      ¬(GetChunk hash2 dataDir fs2 cid2).response = .error .dataLoss) := by
  obtain ⟨hflat, hbound⟩ :=
    chunkFramesAux_flatten_bound content.length content (le_refl _)
  refine ⟨?_, hflat, hbound, ?_⟩
  · unfold GetChunk
    rw [if_neg hid, hfound]
  · intro hash2 fs2 cid2 h
    unfold GetChunk at h
    split at h
    · cases h
    · split at h
      · cases h
      · cases h

/-- Witness for the amended C3 theorem: the single stored byte `9` is
served as one frame and its concatenation is the stored content. -/
theorem getChunk_streams_without_verification_witness :
    ¬("ab12" : String) = "" ∧
    fsLookup [("data/chunks/ab/ab12", [9])] (getChunkPath "data" "ab12") =
      some [9] ∧
    GetChunk hash0 "data" [("data/chunks/ab/ab12", [9])] "ab12" =
      ⟨.ok (chunkFrames [9]), some (hash0 [9])⟩ ∧
    (chunkFrames [9]).flatten = [9] := by
  have h := getChunk_streams_without_verification hash0 "data"
    [("data/chunks/ab/ab12", [9])] "ab12" [9] (by decide) (by rfl)
  exact ⟨by decide, by rfl, h.1, h.2.1⟩

theorem addServer_nodes_length (h : String → Nat) (hr : HashRing)
    (serverID address : String) :
    (AddServer h hr serverID address).nodes.length =
      hr.nodes.length + hr.virtualNodes := by
  simp [AddServer]

theorem addServer_countP (h : String → Nat) (hr : HashRing)
    (serverID address : String) :
    (AddServer h hr serverID address).nodes.countP
        (fun n => n.serverID = serverID) =
      hr.nodes.countP (fun n => n.serverID = serverID) + hr.virtualNodes := by
  simp only [AddServer]
  rw [(List.mergeSort_perm _ _).countP_eq]
  rw [List.countP_append]
  have : ((List.range hr.virtualNodes).map
      (fun i => HashNode.mk (h (serverID ++ "#" ++ toString i)) serverID)).countP
      (fun n => n.serverID = serverID) = hr.virtualNodes := by
    rw [List.countP_map]
    simp [Function.comp_def]
  omega

theorem mapPut_idem (m : List (String × Server)) (k : String) (v : Server) :
    mapPut (mapPut m k v) k v = mapPut m k v := by
  induction m with
  | nil => simp [mapPut]
  | cons kv rest ih =>
    obtain ⟨q, w⟩ := kv
    by_cases h : q = k
    · simp [mapPut, h]
    · simp [mapPut, h, ih]

/-- C7 counterexample: adding the same server twice is not idempotent —
after the second `AddServer` the ring holds 300 nodes (all for that
server), not 150, and the ring state differs from the single-add state. -/
theorem addServer_not_idempotent_counterexample :
    (AddServer strHash0 (AddServer strHash0 NewHashRing "s1" "a") "s1" "a").nodes.length
      = 300 ∧
    (AddServer strHash0 NewHashRing "s1" "a").nodes.length = 150 ∧
    ¬AddServer strHash0 (AddServer strHash0 NewHashRing "s1" "a") "s1" "a" =
      AddServer strHash0 NewHashRing "s1" "a" ∧
    (AddServer strHash0 (AddServer strHash0 NewHashRing "s1" "a") "s1" "a").nodes.countP
      (fun n => n.serverID = "s1") = 300 := by
  have hv : (AddServer strHash0 NewHashRing "s1" "a").virtualNodes = 150 := rfl
  have h1 : (AddServer strHash0 NewHashRing "s1" "a").nodes.length = 150 := by
    rw [addServer_nodes_length]
    rfl
  have h2 : (AddServer strHash0 (AddServer strHash0 NewHashRing "s1" "a")
      "s1" "a").nodes.length = 300 := by
    rw [addServer_nodes_length, h1, hv]
  have hc1 : (AddServer strHash0 NewHashRing "s1" "a").nodes.countP
      (fun n => n.serverID = "s1") = 150 := by
    rw [addServer_countP]
    rfl
  refine ⟨h2, h1, ?_, ?_⟩
  · intro heq
    have hlen := congrArg (fun r => r.nodes.length) heq
    simp only at hlen
    rw [h2, h1] at hlen
    exact absurd hlen (by decide)
  · rw [addServer_countP, hc1, hv]

/-- C7 (amended): `AddServer` is not idempotent on retries: a second
`add(server_id, address)` appends another 150 virtual nodes for the server
(the ring then holds `2 * virtualNodes` nodes for it instead of 150), so
the ring state differs from a single add; only the servers map is
unchanged by the second call. -/
theorem addServer_second_call_duplicates_nodes (h : String → Nat)
    (hr : HashRing) (serverID address : String) :
    (AddServer h (AddServer h hr serverID address) serverID address).nodes.length
      = hr.nodes.length + 2 * hr.virtualNodes ∧
    (AddServer h (AddServer h hr serverID address) serverID address).nodes.countP
        (fun n => n.serverID = serverID) =
      hr.nodes.countP (fun n => n.serverID = serverID) + 2 * hr.virtualNodes ∧
    (AddServer h (AddServer h hr serverID address) serverID address).servers =
      (AddServer h hr serverID address).servers ∧
    (AddServer h hr serverID address).nodes.countP
        (fun n => n.serverID = serverID) =
      hr.nodes.countP (fun n => n.serverID = serverID) + hr.virtualNodes := by
  have hv : (AddServer h hr serverID address).virtualNodes = hr.virtualNodes := rfl
  refine ⟨?_, ?_, ?_, addServer_countP h hr serverID address⟩
  · rw [addServer_nodes_length, addServer_nodes_length, hv]
    omega
  · rw [addServer_countP, addServer_countP, hv]
    omega
  · simp only [AddServer]
    exact mapPut_idem hr.servers serverID ⟨serverID, address⟩

theorem sortSearchAux_correct (f : Nat → Bool) :
    ∀ (fuel i j : Nat), i ≤ j → j - i ≤ fuel →
      (∀ a b, i ≤ a → a ≤ b → b < j → f a = true → f b = true) →
      i ≤ sortSearchAux f fuel i j ∧
      sortSearchAux f fuel i j ≤ j ∧
      (∀ k, i ≤ k → k < sortSearchAux f fuel i j → f k = false) ∧
      (sortSearchAux f fuel i j < j → f (sortSearchAux f fuel i j) = true) := by
  intro fuel
  induction fuel with
  | zero =>
    intro i j hij hfuel hmono
    have hieq : i = j := by omega
    rw [sortSearchAux]
    exact ⟨le_refl _, by omega, by intro k h1 h2; omega, by intro hcon; omega⟩
  | succ n ih =>
    intro i j hij hfuel hmono
    rw [sortSearchAux]
    by_cases hlt : i < j
    · rw [if_pos hlt]
      dsimp only
      by_cases hf : f ((i + j) / 2) = true
      · rw [if_pos hf]
        have hrec := ih i ((i + j) / 2) (by omega) (by omega)
          (fun a b ha hab hb hfa => hmono a b ha hab (by omega) hfa)
        obtain ⟨r1, r2, r3, r4⟩ := hrec
        refine ⟨r1, by omega, r3, ?_⟩
        intro hr
        by_cases hrm : sortSearchAux f n i ((i + j) / 2) < (i + j) / 2
        · exact r4 hrm
        · have heq : sortSearchAux f n i ((i + j) / 2) = (i + j) / 2 := by omega
          rw [heq]
          exact hf
      · rw [if_neg hf]
        have hrec := ih ((i + j) / 2 + 1) j (by omega) (by omega)
          (fun a b ha hab hb hfa => hmono a b (by omega) hab hb hfa)
        obtain ⟨r1, r2, r3, r4⟩ := hrec
        refine ⟨by omega, r2, ?_, r4⟩
        intro k hk1 hk2
        by_cases hkm : (i + j) / 2 + 1 ≤ k
        · exact r3 k hkm hk2
        · cases hfk : f k
          · rfl
          · exact absurd (hmono k ((i + j) / 2) hk1 (by omega) (by omega) hfk) hf
    · rw [if_neg hlt]
      exact ⟨le_refl _, by omega, by intro k h1 h2; omega, by intro hcon; omega⟩

/-- C8: on an empty ring, lookup fails with `NoServersAvailable`; on a
non-empty ring sorted by hash value (as the ring maintains it), the lookup
returns the server of the first node whose hash is at least `H(key)` — all
earlier nodes hash strictly below `H(key)` — wrapping to the node at index
0 when no node hashes at or above `H(key)`. -/
theorem getServer_lookup_spec (h : String → Nat) (hr : HashRing) (key : String)
    (hsorted : hr.nodes.Pairwise (fun a b => a.hashValue ≤ b.hashValue)) :
    (hr.nodes = [] → GetServer h hr key = .error .noServersAvailable) ∧
    (¬hr.nodes = [] →
      (∃ idx, idx < hr.nodes.length ∧
        h key ≤ (hr.nodes.getD idx ⟨0, ""⟩).hashValue ∧
        (∀ k, k < idx → (hr.nodes.getD k ⟨0, ""⟩).hashValue < h key) ∧
        GetServer h hr key = .ok ((hr.nodes.getD idx ⟨0, ""⟩).serverID)) ∨
      ((∀ k, k < hr.nodes.length → (hr.nodes.getD k ⟨0, ""⟩).hashValue < h key) ∧
        GetServer h hr key = .ok ((hr.nodes.getD 0 ⟨0, ""⟩).serverID))) := by
  constructor
  · intro he
    unfold GetServer
    rw [if_pos (by rw [he]; rfl)]
  · intro hne
    have hlen : ¬hr.nodes.length = 0 := by
      intro h0
      exact hne (List.length_eq_zero.mp h0)
    have hmono : ∀ a b, 0 ≤ a → a ≤ b → b < hr.nodes.length →
        (fun i => decide (h key ≤ (hr.nodes.getD i ⟨0, ""⟩).hashValue)) a = true →
        (fun i => decide (h key ≤ (hr.nodes.getD i ⟨0, ""⟩).hashValue)) b = true := by
      intro a b _ hab hb hfa
      simp only [decide_eq_true_eq] at hfa ⊢
      rcases Nat.eq_or_lt_of_le hab with rfl | hab2
      · exact hfa
      · have ha : a < hr.nodes.length := by omega
        have hle : (hr.nodes.get ⟨a, ha⟩).hashValue ≤
            (hr.nodes.get ⟨b, hb⟩).hashValue :=
          List.pairwise_iff_get.mp hsorted ⟨a, ha⟩ ⟨b, hb⟩ hab2
        rw [List.getD_eq_getElem _ _ ha] at hfa
        rw [List.getD_eq_getElem _ _ hb]
        calc h key ≤ hr.nodes[a].hashValue := hfa
        _ ≤ hr.nodes[b].hashValue := hle
    obtain ⟨r1, r2, r3, r4⟩ := sortSearchAux_correct
      (fun i => decide (h key ≤ (hr.nodes.getD i ⟨0, ""⟩).hashValue))
      hr.nodes.length 0 hr.nodes.length (Nat.zero_le _) (by omega) hmono
    by_cases hwrap : sortSearchAux
        (fun i => decide (h key ≤ (hr.nodes.getD i ⟨0, ""⟩).hashValue))
        hr.nodes.length 0 hr.nodes.length < hr.nodes.length
    · left
      refine ⟨_, hwrap, by simpa using r4 hwrap, ?_, ?_⟩
      · intro k hk
        have := r3 k (Nat.zero_le _) hk
        simpa using this
      · unfold GetServer
        rw [if_neg hlen]
        dsimp only
        rw [if_neg (by unfold sortSearch; omega)]
        rfl
    · right
      have hreq : sortSearchAux
          (fun i => decide (h key ≤ (hr.nodes.getD i ⟨0, ""⟩).hashValue))
          hr.nodes.length 0 hr.nodes.length = hr.nodes.length := by omega
      refine ⟨?_, ?_⟩
      · intro k hk
        have := r3 k (Nat.zero_le _) (by omega)
        simpa using this
      · unfold GetServer
        rw [if_neg hlen]
        dsimp only
        rw [if_pos (by unfold sortSearch; omega)]

/-- Witness for C8: on a one-node ring the lookup for a key hashing above
the node wraps to index 0 and returns that node's server. -/
theorem getServer_lookup_spec_witness :
    List.Pairwise (fun a b : HashNode => a.hashValue ≤ b.hashValue)
      [⟨2, "a"⟩] ∧
    GetServer strHash0 ⟨[⟨2, "a"⟩], [("a", ⟨"a", "A"⟩)], 150⟩ "xxx" = .ok "a" := by
  refine ⟨by simp, ?_⟩
  have hres := (getServer_lookup_spec strHash0
    ⟨[⟨2, "a"⟩], [("a", ⟨"a", "A"⟩)], 150⟩ "xxx" (by simp)).2 (by simp)
  rcases hres with ⟨idx, hidx, _, _, heq⟩ | ⟨_, heq⟩
  · have hidx1 : idx < 1 := hidx
    have h0 : idx = 0 := by omega
    subst h0
    exact heq
  · exact heq

theorem mapGet_mapPut_self (m : List (String × Server)) (k : String) (v : Server) :
    mapGet (mapPut m k v) k = some v := by
  induction m with
  | nil => simp [mapPut, mapGet]
  | cons kv rest ih =>
    obtain ⟨q, w⟩ := kv
    by_cases h : q = k
    · simp [mapPut, mapGet, h]
    · simp [mapPut, mapGet, h, ih]

theorem mapGet_mapPut_ne (m : List (String × Server)) (k q : String) (v : Server)
    (h : ¬q = k) : mapGet (mapPut m k v) q = mapGet m q := by
  have hkq : ¬k = q := fun hk => h hk.symm
  induction m with
  | nil => simp [mapPut, mapGet, hkq]
  | cons kv rest ih =>
    obtain ⟨p, w⟩ := kv
    by_cases h2 : p = k
    · subst h2
      simp [mapPut, mapGet, hkq]
    · simp [mapPut, mapGet, h2, ih]

theorem mapGet_mapDel_ne (m : List (String × Server)) (k q : String)
    (h : ¬q = k) : mapGet (mapDel m k) q = mapGet m q := by
  have hkq : ¬k = q := fun hk => h hk.symm
  induction m with
  | nil => simp [mapDel, mapGet]
  | cons kv rest ih =>
    obtain ⟨p, w⟩ := kv
    by_cases h2 : p = k
    · subst h2
      simp [mapDel, mapGet, hkq, ih]
    · simp [mapDel, mapGet, h2, ih]

/-- C10: every virtual node's server is registered in the servers map —
the invariant holds for the fresh ring and is preserved by `AddServer` and
`RemoveServer` — and whenever a lookup succeeds the returned server id
resolves to a registered server with an address. -/
theorem ringInv_preserved_and_lookup_resolves :
    RingInv NewHashRing ∧
    (∀ (h : String → Nat) (hr : HashRing) (sid addr : String),
      RingInv hr → RingInv (AddServer h hr sid addr)) ∧
    (∀ (hr : HashRing) (sid : String) (hr2 : HashRing),
      RemoveServer hr sid = .ok hr2 → RingInv hr → RingInv hr2) ∧
    (∀ (h : String → Nat) (hr : HashRing) (key s : String),
      RingInv hr → GetServer h hr key = .ok s →
      ∃ srv : Server, mapGet hr.servers s = some srv) := by
  refine ⟨?_, ?_, ?_, ?_⟩
  · intro node hnode
    cases hnode
  · intro h hr sid addr hinv node hnode
    simp only [AddServer, List.mem_mergeSort, List.mem_append,
      List.mem_map] at hnode
    rcases hnode with hold | ⟨i, _, rfl⟩
    · simp only [AddServer]
      by_cases hsid : node.serverID = sid
      · rw [hsid, mapGet_mapPut_self]
        rfl
      · rw [mapGet_mapPut_ne _ _ _ _ hsid]
        exact hinv node hold
    · simp only [AddServer]
      rw [mapGet_mapPut_self]
      rfl
  · intro hr sid hr2 hrem hinv node hnode
    unfold RemoveServer at hrem
    split at hrem
    · cases hrem
      simp only [List.mem_filter] at hnode
      obtain ⟨hmem, hne⟩ := hnode
      have hne2 : ¬node.serverID = sid := by
        simpa using hne
      rw [mapGet_mapDel_ne _ _ _ hne2]
      exact hinv node hmem
    · cases hrem
  · intro h hr key s hinv hok
    unfold GetServer at hok
    split at hok
    · cases hok
    · next hlen =>
      dsimp only at hok
      cases hok
      set idx2 := if hr.nodes.length ≤ sortSearch hr.nodes.length
          (fun i => decide (h key ≤ (hr.nodes.getD i ⟨0, ""⟩).hashValue)) then 0
        else sortSearch hr.nodes.length
          (fun i => decide (h key ≤ (hr.nodes.getD i ⟨0, ""⟩).hashValue)) with hidx2
      have hlt : idx2 < hr.nodes.length := by
        rw [hidx2]
        split
        · omega
        · omega
      have hmem : hr.nodes.getD idx2 ⟨0, ""⟩ ∈ hr.nodes := by
        rw [List.getD_eq_getElem _ _ hlt]
        exact List.getElem_mem hlt
      have := hinv _ hmem
      rcases Option.isSome_iff_exists.mp this with ⟨srv, hsrv⟩
      exact ⟨srv, hsrv⟩

/-- Witness for C10: on a concrete one-server ring the invariant holds and
the successful lookup resolves to the registered server record. -/
theorem ringInv_preserved_and_lookup_resolves_witness :
    RingInv ⟨[⟨2, "a"⟩], [("a", ⟨"a", "A"⟩)], 150⟩ ∧
    GetServer strHash0 ⟨[⟨2, "a"⟩], [("a", ⟨"a", "A"⟩)], 150⟩ "xxx" = .ok "a" ∧
    (∃ srv : Server,
      mapGet ([("a", ⟨"a", "A"⟩)] : List (String × Server)) "a" = some srv) := by
  have hinv : RingInv ⟨[⟨2, "a"⟩], [("a", ⟨"a", "A"⟩)], 150⟩ := by
    intro node hnode
    have hx := List.mem_singleton.mp hnode
    subst hx
    rfl
  refine ⟨hinv, by rfl, ?_⟩
  exact ringInv_preserved_and_lookup_resolves.2.2.2 strHash0
    ⟨[⟨2, "a"⟩], [("a", ⟨"a", "A"⟩)], 150⟩ "xxx" "a" hinv (by rfl)

end S3Storage
